import Mathlib

/-!
# Verification of the `an-rope` persistent rope library

This file gives a shallow embedding of the `an_rope` crate (the `Rope`
façade in `src/src/lib.rs`, specialised to the byte metric `usize`, which is
the metric used by all the claims and the tests) together with the parts of
the crate that the façade delegates to.

The `internals` module (the `Node`/`NodeLink` tree, its `split`,
`rebalance` and `is_balanced`), the `metric` module and the `slice` module
are not part of the sources; definitions for them are modelled from the
specification and are marked `Modelled from the spec:` in their doc
comments.  Everything else is translated directly from `src/src/lib.rs`
(the current crate) or from `src/an-rope/src/lib.rs` (the early prototype,
used by claim C7).

Text is modelled at the byte level: a text fragment is a `List Nat` of its
UTF-8 bytes, and UTF-8 character boundaries are recognised the way Rust's
`str::is_char_boundary` recognises them (a byte in `0x80..0xBF` is a
continuation byte).  Rust panics (assertion failures, subtraction
overflow, `unimplemented!`) are modelled by an `Except Fault` result.
-/

namespace AnRope

/-- A sequence of UTF-8 bytes (the contents of a rope or of a leaf). -/
abbrev Bytes := List Nat

/-- The panic-class faults of the error-handling design (§7 of the spec),
plus `underflow` for a Rust arithmetic-underflow panic and
`unimplemented` for Rust's `unimplemented!()` panic. -/
inductive Fault where
  | bounds
  | order
  | boundary
  | underflow
  | unimplemented
  deriving DecidableEq, Repr

/-- Decidable equality of `Except` results, so that concrete runs of the
fallible operations can be checked by `decide`. -/
instance instDecEqExcept {ε α : Type} [DecidableEq ε] [DecidableEq α] :
    DecidableEq (Except ε α) := fun a b =>
  match a, b with
  | .ok x, .ok y => decidable_of_iff (x = y) (by simp)
  | .error x, .error y => decidable_of_iff (x = y) (by simp)
  | .ok _, .error _ => isFalse (by simp)
  | .error _, .ok _ => isFalse (by simp)

/-- A byte in `0x80..0xBF` is a UTF-8 continuation byte. -/
def isUtf8Cont (b : Nat) : Bool := 128 ≤ b && b < 192

/-- Rust's `str::is_char_boundary`: `0` and the length are boundaries, an
index of a continuation byte is not, and an index past the end is not. -/
def isCharBoundary (s : Bytes) (i : Nat) : Bool :=
  if i = 0 then true
  else if h : i < s.length then !(isUtf8Cont (s.get ⟨i, h⟩))
  else i == s.length

/-- Rust `usize` subtraction with the debug overflow check: `a - b`
panics when `b > a`. -/
def checkedSub (a b : Nat) : Except Fault Nat :=
  if b ≤ a then Except.ok (a - b) else Except.error Fault.underflow

/-- Fibonacci numbers with `fib 0 = 0`, `fib 1 = 1`, as in the balance
invariant of §3 of the spec. -/
def fib : Nat → Nat
  | 0 => 0
  | 1 => 1
  | n + 2 => fib n + fib (n + 1)

/-- The rope tree cell: `Empty` (zero-length sentinel), `Leaf` (an owned
text fragment) or `Branch l r` (`weight` and `height` are cached in the
Rust code; here they are recomputed, which is equivalent under the
weight invariant of §3). -/
inductive Node where
  | empty
  | leaf (s : Bytes)
  | branch (l r : Node)
  deriving DecidableEq, Repr

namespace Node

/-- Total byte length of a subtree. -/
def len : Node → Nat
  | empty => 0
  | leaf s => s.length
  | branch l r => l.len + r.len

/-- Subtree depth (`height` in the Rust code); leaves and `Empty` have
depth 0. -/
def depth : Node → Nat
  | branch l r => max l.depth r.depth + 1
  | _ => 0

/-- The byte sequence of a subtree: concatenation of its leaves. -/
def bytes : Node → Bytes
  | empty => []
  | leaf s => s
  | branch l r => l.bytes ++ r.bytes

/-- The ordered list of leaf fragments of a subtree. -/
def leaves : Node → List Bytes
  | empty => []
  | leaf s => [s]
  | branch l r => l.leaves ++ r.leaves

/-- Modelled from the spec: `new_leaf(text)` wraps a fragment; an empty
string collapses to `Empty` (§4.1). -/
def new_leaf (s : Bytes) : Node :=
  if s.isEmpty then empty else leaf s

/-- Modelled from the spec: `new_branch(l, r)`; if either side is `Empty`
it returns the other (empty-elision invariant, §4.1). -/
def new_branch : Node → Node → Node
  | empty, r => r
  | l, empty => l
  | l, r => branch l r

/-- Modelled from the spec: the balance criterion of §3 checked on every
subtree — a subtree of depth `d` is balanced iff its byte length is at
least `Fib(d+2) - 1`; this is `NodeLink::is_balanced` in the missing
`internals` module. -/
def is_balanced : Node → Bool
  | branch l r =>
      decide (fib ((branch l r).depth + 2) - 1 ≤ (branch l r).len)
        && l.is_balanced && r.is_balanced
  | _ => true

/-- Modelled from the spec: `split(point)` of the missing `internals`
module under the byte metric.  Splitting inside a `Leaf` slices the text
at the byte offset and fails (`BoundaryFault`) if the offset does not fall
on a UTF-8 character boundary (§4.1); Rust's `is_char_boundary` is false
past the end of the fragment, which is how an out-of-range split point
surfaces (the `delete` tests expect the boundary panic there).  A branch
descends left when `point` is below the left weight and right with the
adjusted index otherwise; the fresh nodes are built with `new_branch`. -/
def split : Node → Nat → Except Fault (Node × Node)
  | empty, i => if i = 0 then .ok (empty, empty) else .error Fault.boundary
  | leaf s, i =>
      if isCharBoundary s i then
        .ok (new_leaf (s.take i), new_leaf (s.drop i))
      else .error Fault.boundary
  | branch l r, i =>
      if i < l.len then
        match l.split i with
        | .ok (ll, lr) => .ok (ll, new_branch lr r)
        | .error f => .error f
      else
        match r.split (i - l.len) with
        | .ok (rl, rr) => .ok (new_branch l rl, rr)
        | .error f => .error f

/-- Is this node structurally the `Empty` sentinel? -/
def isEmptyNode : Node → Bool
  | empty => true
  | _ => false

/-- The structural invariants of §3 of the spec: no empty leaf fragment
and no `Empty` child of a `Branch` (every node reachable through the
crate's constructors satisfies this). -/
def wfB : Node → Bool
  | empty => true
  | leaf s => !s.isEmpty
  | branch l r => !l.isEmptyNode && !r.isEmptyNode && l.wfB && r.wfB

end Node

/-- One bottom-up pairwise merging round of the rebalance rebuild
(§4.3 step 2): adjacent trees are concatenated left to right, a trailing
odd tree is carried over. -/
def mergePairs : List Node → List Node
  | a :: b :: rest => Node.new_branch a b :: mergePairs rest
  | l => l

/-- Iterated pairwise merging, with explicit fuel (one unit per round;
`l.length` rounds always suffice, since every round at least halves the
list, so the zero-fuel arm is never reached from `Node.rebuild`). -/
def mergeAllFuel (l : List Node) (fuel : Nat) : Node :=
  match l with
  | [] => Node.empty
  | [t] => t
  | a :: b :: rest =>
      match fuel with
      | 0 => Node.empty
      | fuel + 1 => mergeAllFuel (mergePairs (a :: b :: rest)) fuel

/-- Modelled from the spec: the rebalance rebuild of §4.3 — collect the
ordered leaf fragments and rebuild a minimum-height tree bottom-up by
pairwise merging (the optional leaf coalescing of step 3 is not
performed). -/
def Node.rebuild (n : Node) : Node :=
  mergeAllFuel (n.leaves.map Node.leaf) n.leaves.length

/-- Modelled from the spec: `NodeLink::rebalance` of the missing
`internals` module — rebalance automatically only when the invariant is
violated (§4.3). -/
def Node.rebalanceNode (n : Node) : Node :=
  if n.is_balanced then n else n.rebuild

/-- A Rope: exclusively owns one root `NodeLink` (`src/src/lib.rs`). -/
structure Rope where
  root : Node
  deriving DecidableEq, Repr

namespace Rope

/-- `impl<T> From<T> for Rope`: wraps a node, rebalancing it
(`Rope { root: that.into().rebalance() }`). -/
def fromNode (n : Node) : Rope := ⟨n.rebalanceNode⟩

/-- `Rope::from(String)`: a string becomes a single leaf (empty strings
collapse to `Empty`), then the `From` impl rebalances. -/
def fromBytes (s : Bytes) : Rope := fromNode (Node.new_leaf s)

/-- `Rope::len`: total byte length (`self.root.len()`). -/
def len (r : Rope) : Nat := r.root.len

/-- `Rope::is_empty`: `self.len() == 0`. -/
def isEmpty (r : Rope) : Bool := r.len == 0

/-- `Measured::measure` for the byte metric: the byte length. -/
def measure (r : Rope) : Nat := r.root.len

/-- The full byte sequence of the rope (`bytes()` iterates the leaf
fragments in order and flat-maps their bytes). -/
def bytes (r : Rope) : Bytes := r.root.bytes

/-- `Rope::split` (`src/src/lib.rs:710`): asserts `index <= measure`,
splits the root and wraps both halves through `Rope::from`. -/
def split (r : Rope) (i : Nat) : Except Fault (Rope × Rope) :=
  if i ≤ r.measure then
    match r.root.split i with
    | .ok (l, rt) => .ok (fromNode l, fromNode rt)
    | .error f => .error f
  else .error Fault.bounds

/-- `Rope::append` (`src/src/lib.rs:654`): clone when `other` is empty,
otherwise concatenate the roots and rebuild through `Rope::from`. -/
def append (r other : Rope) : Rope :=
  if !other.isEmpty then fromNode (Node.new_branch r.root other.root)
  else r

/-- `Rope::prepend` (`src/src/lib.rs:690`). -/
def prepend (r other : Rope) : Rope :=
  if !other.isEmpty then fromNode (Node.new_branch other.root r.root)
  else r

/-- `Rope::insert_rope` (`src/src/lib.rs:557`): clone of `self` when the
inserted rope is empty (checked before anything else); prepend at index
0; append at index `len`; otherwise split at the index and reconcatenate
`left + other + right`. -/
def insert_rope (r : Rope) (index : Nat) (rope : Rope) : Except Fault Rope :=
  if !rope.isEmpty then
    if index = 0 then .ok (r.prepend rope)
    else if index = r.measure then .ok (r.append rope)
    else
      match r.root.split index with
      | .ok (left, right) =>
          .ok (fromNode (Node.new_branch (Node.new_branch left rope.root) right))
      | .error f => .error f
  else .ok r

/-- `Rope::insert` (`src/src/lib.rs:442`): asserts `index <= measure`
(`BoundsFault` otherwise), then inserts the singleton rope of the
character; `ch` is the character's UTF-8 byte encoding. -/
def insert (r : Rope) (index : Nat) (ch : Bytes) : Except Fault Rope :=
  if index ≤ r.measure then r.insert_rope index (fromBytes ch)
  else .error Fault.bounds

/-- `Rope::insert_str` (`src/src/lib.rs:627`): asserts `index <= measure`,
then inserts the string as a rope. -/
def insert_str (r : Rope) (index : Nat) (s : Bytes) : Except Fault Rope :=
  if index ≤ r.measure then r.insert_rope index (fromBytes s)
  else .error Fault.bounds

/-- `Rope::delete`, the default (`cfg(not(feature = "unstable"))`) version
at `src/src/lib.rs:503`: split at `range.start`, split the remainder at
`range.end - range.start` (a `usize` subtraction with no preceding order
check), discard the middle and reconcatenate.  There is no explicit
`start <= end` assertion in this version. -/
def delete (r : Rope) (start stop : Nat) : Except Fault Rope :=
  match r.root.split start with
  | .ok (l, rest) =>
      match checkedSub stop start with
      | .ok d =>
          match rest.split d with
          | .ok (_, rt) => .ok (fromNode (Node.new_branch l rt))
          | .error f => .error f
      | .error f => .error f
  | .error f => .error f

/-- `Rope::rebalance` (`src/src/lib.rs:724`): if the rope is already
balanced it does nothing; in the other branch the line that would replace
the root (`self.root = self.root.rebalance()`) is commented out in the
source, so nothing happens either way. -/
def rebalance (r : Rope) : Rope :=
  if r.root.is_balanced then r else r

/-- `Rope::is_balanced` (`src/src/lib.rs:739`): delegates to the root. -/
def is_balanced (r : Rope) : Bool := r.root.is_balanced

/-- `Rope::bytes_eq` (`src/src/lib.rs:899`): walks the two byte streams in
lockstep (`zip` stops at the shorter one) comparing bytewise. -/
def bytes_eq (r : Rope) (other : Bytes) : Bool :=
  (r.bytes.zip other).all fun p => p.1 == p.2

/-- `PartialEq for Rope` (`src/src/lib.rs:972`): equal lengths and equal
byte streams. -/
def beq (a b : Rope) : Bool :=
  if a.len == b.len then a.bytes_eq b.bytes else false

/-- `ops::Index<ops::Range<usize>> for Rope` (`src/src/lib.rs:1147`):
the body is `unimplemented!()`. -/
def indexRange (_r : Rope) (_start _stop : Nat) : Except Fault Bytes :=
  .error Fault.unimplemented

/-- `ops::Index<ops::RangeTo<usize>> for Rope` (`src/src/lib.rs:1156`):
the body is `unimplemented!()`. -/
def indexRangeTo (_r : Rope) (_stop : Nat) : Except Fault Bytes :=
  .error Fault.unimplemented

/-- `ops::Index<ops::RangeFrom<usize>> for Rope` (`src/src/lib.rs:1164`):
the body is `unimplemented!()`. -/
def indexRangeFrom (_r : Rope) (_start : Nat) : Except Fault Bytes :=
  .error Fault.unimplemented

/-- Modelled from the spec: `Rope::slice` constructs a `RopeSlice` view
(the `slice` module is missing from the sources); construction fails
(`BoundsFault`/`BoundaryFault`) if the bounds exceed the rope's length or
fall inside a multi-byte character (§4.5).  The view is represented by the
byte range it exposes. -/
def slice (r : Rope) (start stop : Nat) : Except Fault Bytes :=
  if start > r.len ∨ stop > r.len then .error Fault.bounds
  else if !(isCharBoundary r.bytes start && isCharBoundary r.bytes stop) then
    .error Fault.boundary
  else .ok ((r.bytes.drop start).take (stop - start))

end Rope

/-- The tree cell of the early prototype crate (`src/an-rope/src/lib.rs`,
whose `bintree` module declares `Node<String>` with variants `None`,
`Leaf` and `Branch { l, r }`). -/
inductive ProtoNode where
  | none
  | leaf (s : Bytes)
  | branch (l r : ProtoNode)
  deriving DecidableEq, Repr

namespace ProtoNode

/-- `Node::len` of the prototype (`src/an-rope/src/lib.rs:126`): total
byte length, computed recursively. -/
def len : ProtoNode → Nat
  | none => 0
  | leaf s => s.length
  | branch l r => l.len + r.len

/-- Rust's `&s[i..i+1]` on a string slice: panics when `i + 1` runs past
the end or when either end of the range is not a character boundary. -/
def sliceOne (s : Bytes) (i : Nat) : Except Fault Bytes :=
  if i + 1 > s.length then .error Fault.bounds
  else if !(isCharBoundary s i && isCharBoundary s (i + 1)) then
    .error Fault.boundary
  else .ok ((s.drop i).take 1)

/-- `ops::Index<usize> for Node<String>` of the prototype
(`src/an-rope/src/lib.rs:109-119`), translated arm for arm: a leaf slices
`&s[i..i+1]`; a branch computes `len = self.len()` (the TOTAL length of
the node, not the left weight) and descends right with `i - len` only
when `len < i`, otherwise left with the unchanged `i`; `None` panics. -/
def index : ProtoNode → Nat → Except Fault Bytes
  | leaf s, i => sliceOne s i
  | branch l r, i =>
      if (branch l r).len < i then r.index (i - (branch l r).len)
      else l.index i
  | none, _ => .error Fault.bounds

end ProtoNode

/-! ## Byte-sequence lemmas -/

theorem Node.bytes_new_leaf (s : Bytes) : (Node.new_leaf s).bytes = s := by
  unfold Node.new_leaf
  split
  · next h => simp [Node.bytes, List.isEmpty_iff.mp h]
  · rfl

theorem Node.bytes_new_branch (l r : Node) :
    (Node.new_branch l r).bytes = l.bytes ++ r.bytes := by
  cases l <;> cases r <;> simp [Node.new_branch, Node.bytes]

theorem Node.len_eq_length_bytes (n : Node) : n.len = n.bytes.length := by
  induction n with
  | empty => rfl
  | leaf s => rfl
  | branch l r ihl ihr => simp [Node.len, Node.bytes, ihl, ihr]

theorem Node.bytes_eq_join_leaves (n : Node) : n.bytes = n.leaves.flatten := by
  induction n with
  | empty => rfl
  | leaf s => simp [Node.bytes, Node.leaves]
  | branch l r ihl ihr => simp [Node.bytes, Node.leaves, ihl, ihr]

theorem mergePairs_length :
    ∀ l : List Node, (mergePairs l).length = (l.length + 1) / 2
  | [] => by simp [mergePairs]
  | [_] => by simp [mergePairs]
  | _ :: _ :: rest => by
      simp [mergePairs, mergePairs_length rest]
      omega

theorem mergePairs_ne_nil {l : List Node} (h : l ≠ []) : mergePairs l ≠ [] := by
  have h1 : 0 < l.length := List.length_pos.mpr h
  have h2 := mergePairs_length l
  intro hcon
  rw [hcon] at h2
  simp at h2
  omega

theorem mergePairs_flat :
    ∀ l : List Node,
      ((mergePairs l).map Node.bytes).flatten = (l.map Node.bytes).flatten
  | [] => rfl
  | [_] => rfl
  | a :: b :: rest => by
      simp [mergePairs, Node.bytes_new_branch, mergePairs_flat rest]

theorem mergeAllFuel_bytes :
    ∀ (l : List Node) (fuel : Nat), l.length ≤ fuel + 1 →
      (mergeAllFuel l fuel).bytes = (l.map Node.bytes).flatten
  | [], _, _ => by simp [mergeAllFuel, Node.bytes]
  | [_], _, _ => by simp [mergeAllFuel]
  | _ :: _ :: _, 0, h => by simp at h
  | a :: b :: rest, fuel + 1, h => by
      show (mergeAllFuel (mergePairs (a :: b :: rest)) fuel).bytes = _
      rw [mergeAllFuel_bytes (mergePairs (a :: b :: rest)) fuel
            (by rw [mergePairs_length]; simp at h ⊢; omega)]
      exact mergePairs_flat _

theorem Node.bytes_rebuild (n : Node) : n.rebuild.bytes = n.bytes := by
  unfold Node.rebuild
  rw [mergeAllFuel_bytes _ _ (by simp)]
  rw [Node.bytes_eq_join_leaves, List.map_map]
  have hid : Node.bytes ∘ Node.leaf = id := by
    funext s; rfl
  rw [hid, List.map_id]

theorem Node.bytes_rebalanceNode (n : Node) : n.rebalanceNode.bytes = n.bytes := by
  unfold Node.rebalanceNode
  split
  · rfl
  · exact n.bytes_rebuild

theorem Rope.bytes_fromNode (n : Node) : (Rope.fromNode n).bytes = n.bytes :=
  n.bytes_rebalanceNode

theorem Rope.bytes_fromBytes (s : Bytes) : (Rope.fromBytes s).bytes = s := by
  rw [Rope.fromBytes, Rope.bytes_fromNode, Node.bytes_new_leaf]

theorem Rope.len_as_length_bytes (r : Rope) : r.len = r.bytes.length :=
  r.root.len_eq_length_bytes

theorem Rope.measure_eq_length_bytes (r : Rope) : r.measure = r.bytes.length :=
  r.root.len_eq_length_bytes

theorem Rope.isEmpty_iff_bytes (r : Rope) : r.isEmpty = true ↔ r.bytes = [] := by
  rw [Rope.isEmpty, Nat.beq_eq_true_eq, Rope.len_as_length_bytes,
    List.length_eq_zero]

/-! ## Lemmas about `Node.split` -/

theorem Node.split_bytes :
    ∀ (n : Node) (i : Nat) (a b : Node), n.split i = .ok (a, b) →
      a.bytes = n.bytes.take i ∧ b.bytes = n.bytes.drop i
  | .empty, i, a, b, h => by
      rw [Node.split] at h
      split at h
      · next hi =>
          subst hi
          injection h with h
          injection h with h1 h2
          subst h1; subst h2
          exact ⟨rfl, rfl⟩
      · exact absurd h (by simp)
  | .leaf s, i, a, b, h => by
      rw [Node.split] at h
      split at h
      · injection h with h
        injection h with h1 h2
        subst h1; subst h2
        exact ⟨Node.bytes_new_leaf _, Node.bytes_new_leaf _⟩
      · exact absurd h (by simp)
  | .branch l r, i, a, b, h => by
      rw [Node.split] at h
      split at h
      · next hlt =>
          cases hsp : l.split i with
          | ok p =>
              obtain ⟨ll, lr⟩ := p
              rw [hsp] at h
              injection h with h
              injection h with h1 h2
              subst h1; subst h2
              obtain ⟨hb1, hb2⟩ := Node.split_bytes l i ll lr hsp
              have hle : i ≤ l.bytes.length := by
                rw [← Node.len_eq_length_bytes]; omega
              constructor
              · rw [hb1, Node.bytes, List.take_append_of_le_length hle]
              · rw [Node.bytes_new_branch, hb2, Node.bytes,
                  List.drop_append_of_le_length hle]
          | error f =>
              rw [hsp] at h
              exact absurd h (by simp)
      · next hge =>
          cases hsp : r.split (i - l.len) with
          | ok p =>
              obtain ⟨rl, rr⟩ := p
              rw [hsp] at h
              injection h with h
              injection h with h1 h2
              subst h1; subst h2
              obtain ⟨hb1, hb2⟩ := Node.split_bytes r (i - l.len) rl rr hsp
              have hle : l.bytes.length ≤ i := by
                rw [← Node.len_eq_length_bytes]; omega
              have hlen : l.len = l.bytes.length := l.len_eq_length_bytes
              constructor
              · rw [Node.bytes_new_branch, hb1, Node.bytes,
                  List.take_append_eq_append_take,
                  List.take_of_length_le hle, hlen]
              · rw [hb2, Node.bytes, List.drop_append_eq_append_drop,
                  List.drop_eq_nil_of_le hle, List.nil_append, hlen]
          | error f =>
              rw [hsp] at h
              exact absurd h (by simp)

theorem Node.split_bytes_append {n a b : Node} {i : Nat}
    (h : n.split i = .ok (a, b)) : a.bytes ++ b.bytes = n.bytes := by
  obtain ⟨h1, h2⟩ := Node.split_bytes n i a b h
  rw [h1, h2, List.take_append_drop]

theorem Node.split_error :
    ∀ (n : Node) (i : Nat) (f : Fault), n.split i = .error f →
      f = Fault.boundary
  | .empty, i, f, h => by
      rw [Node.split] at h
      split at h
      · exact absurd h (by simp)
      · injection h with h; exact h.symm
  | .leaf s, i, f, h => by
      rw [Node.split] at h
      split at h
      · exact absurd h (by simp)
      · injection h with h; exact h.symm
  | .branch l r, i, f, h => by
      rw [Node.split] at h
      split at h
      · cases hsp : l.split i with
        | ok p =>
            obtain ⟨ll, lr⟩ := p
            rw [hsp] at h
            exact absurd h (by simp)
        | error g =>
            rw [hsp] at h
            injection h with h
            subst h
            exact Node.split_error l i g hsp
      · cases hsp : r.split (i - l.len) with
        | ok p =>
            obtain ⟨rl, rr⟩ := p
            rw [hsp] at h
            exact absurd h (by simp)
        | error g =>
            rw [hsp] at h
            injection h with h
            subst h
            exact Node.split_error r (i - l.len) g hsp

/-! ## The Fibonacci balance bound for the rebalance rebuild -/

theorem fib_add_three_le : ∀ e : Nat, fib (e + 3) ≤ 2 ^ e + 1
  | 0 => by decide
  | 1 => by decide
  | e + 2 => by
      have h1 := fib_add_three_le e
      have h2 : fib (e + 4) ≤ 2 ^ (e + 1) + 1 := fib_add_three_le (e + 1)
      have hp : 1 ≤ 2 ^ e := Nat.one_le_two_pow
      have he1 : (2 : Nat) ^ (e + 1) = 2 * 2 ^ e := by
        rw [Nat.pow_succ, Nat.mul_comm]
      have he2 : (2 : Nat) ^ (e + 2) = 4 * 2 ^ e := by
        rw [Nat.pow_succ, he1]; ring
      show fib (e + 3) + fib (e + 4) ≤ 2 ^ (e + 2) + 1
      omega

theorem fib_bound_of_weak {d n : Nat} (hw : 2 ^ d ≤ 2 * n) :
    fib (d + 2) - 1 ≤ n := by
  cases d with
  | zero => simp [fib]
  | succ d =>
      have h1 := fib_add_three_le d
      have h2 : (2 : Nat) ^ (d + 1) = 2 * 2 ^ d := by
        rw [Nat.pow_succ, Nat.mul_comm]
      show fib (d + 3) - 1 ≤ n
      omega

theorem Node.is_balanced_branch {l r : Node} :
    (Node.branch l r).is_balanced = true ↔
      fib ((Node.branch l r).depth + 2) - 1 ≤ (Node.branch l r).len
        ∧ l.is_balanced = true ∧ r.is_balanced = true := by
  show (_ && _ && _) = true ↔ _
  simp [and_assoc]

theorem Node.new_branch_eq_branch {l r : Node} (hl : l ≠ Node.empty)
    (hr : r ≠ Node.empty) : Node.new_branch l r = Node.branch l r := by
  cases l <;> cases r <;> simp_all [Node.new_branch]

theorem Node.ne_empty_of_len_pos {t : Node} (h : 1 ≤ t.len) :
    t ≠ Node.empty := by
  intro he
  subst he
  simp [Node.len] at h

/-- In the invariant of the pairwise rebuild, a tree that was produced by
`k` full merging rounds: depth at most `k` and at least `2^k` bytes. -/
def Full (k : Nat) (t : Node) : Prop := t.depth ≤ k ∧ 2 ^ k ≤ t.len

/-- Every tree in the working list after `k` rounds: balanced, depth at
most `k`, at least `2^(depth-1)` bytes and nonempty. -/
def Good (k : Nat) (t : Node) : Prop :=
  t.is_balanced = true ∧ t.depth ≤ k ∧ 2 ^ t.depth ≤ 2 * t.len ∧ 1 ≤ t.len

/-- The working-list invariant of the pairwise rebuild after `k` rounds:
every tree except possibly the trailing carried one is `Full`, and every
tree is `Good`. -/
def GoodList (k : Nat) (l : List Node) : Prop :=
  (∀ t ∈ l.dropLast, Full k t) ∧ ∀ t ∈ l, Good k t

theorem Good.mono {k : Nat} {t : Node} (h : Good k t) : Good (k + 1) t :=
  ⟨h.1, Nat.le_succ_of_le h.2.1, h.2.2.1, h.2.2.2⟩

theorem good_branch_of_full {k : Nat} {x y : Node} (hxf : Full k x)
    (hxb : x.is_balanced = true) (hy : Good k y) :
    Good (k + 1) (Node.branch x y) := by
  obtain ⟨hxd, hxl⟩ := hxf
  obtain ⟨hyb, hyd, _, hyl⟩ := hy
  have hdep : (Node.branch x y).depth ≤ k + 1 := by
    simp only [Node.depth]
    omega
  have hlen : (Node.branch x y).len = x.len + y.len := rfl
  have hw : 2 ^ (Node.branch x y).depth ≤ 2 * (Node.branch x y).len := by
    calc 2 ^ (Node.branch x y).depth ≤ 2 ^ (k + 1) :=
          Nat.pow_le_pow_right (by omega) hdep
      _ = 2 * 2 ^ k := by rw [Nat.pow_succ, Nat.mul_comm]
      _ ≤ 2 * (Node.branch x y).len := by rw [hlen]; omega
  exact ⟨Node.is_balanced_branch.mpr ⟨fib_bound_of_weak hw, hxb, hyb⟩,
    hdep, hw, by rw [hlen]; omega⟩

theorem full_branch_of_full {k : Nat} {x y : Node} (hx : Full k x)
    (hy : Full k y) : Full (k + 1) (Node.branch x y) := by
  obtain ⟨hxd, hxl⟩ := hx
  obtain ⟨hyd, hyl⟩ := hy
  constructor
  · simp only [Node.depth]
    omega
  · have hlen : (Node.branch x y).len = x.len + y.len := rfl
    have : (2 : Nat) ^ (k + 1) = 2 ^ k + 2 ^ k := by
      rw [Nat.pow_succ]; ring
    omega

theorem goodList_mergePairs :
    ∀ (k : Nat) (l : List Node), GoodList k l →
      GoodList (k + 1) (mergePairs l)
  | _, [], _ => by
      refine ⟨fun t ht => absurd ht (by simp [mergePairs]), ?_⟩
      intro t ht
      exact absurd ht (by simp [mergePairs])
  | k, [t1], h => by
      constructor
      · intro u hu
        simp [mergePairs] at hu
      · intro u hu
        simp only [mergePairs] at hu
        exact (h.2 u hu).mono
  | k, a :: b :: rest, h => by
      have ha_good : Good k a := h.2 a (by simp)
      have hb_good : Good k b := h.2 b (by simp)
      have ha_full : Full k a := h.1 a (by simp)
      have hne_a : a ≠ Node.empty := Node.ne_empty_of_len_pos ha_good.2.2.2
      have hne_b : b ≠ Node.empty := Node.ne_empty_of_len_pos hb_good.2.2.2
      have hbr : Node.new_branch a b = Node.branch a b :=
        Node.new_branch_eq_branch hne_a hne_b
      cases rest with
      | nil =>
          refine ⟨fun t ht => absurd ht (by simp [mergePairs]), ?_⟩
          intro t ht
          simp [mergePairs] at ht
          subst ht
          rw [hbr]
          exact good_branch_of_full ha_full ha_good.1 hb_good
      | cons c rest2 =>
          have hb_full : Full k b := h.1 b (by simp)
          have hrest : GoodList k (c :: rest2) := by
            constructor
            · intro t ht
              apply h.1 t
              simp only [List.dropLast_cons₂, List.mem_cons]
              right; right
              exact ht
            · intro t ht
              exact h.2 t (by simp [ht])
          have ih := goodList_mergePairs k (c :: rest2) hrest
          have hmp_ne : mergePairs (c :: rest2) ≠ [] :=
            mergePairs_ne_nil (by simp)
          constructor
          · intro t ht
            rw [show mergePairs (a :: b :: c :: rest2)
                  = Node.new_branch a b :: mergePairs (c :: rest2) from rfl,
              List.dropLast_cons_of_ne_nil hmp_ne] at ht
            rcases List.mem_cons.mp ht with h1 | h1
            · subst h1
              rw [hbr]
              exact full_branch_of_full ha_full hb_full
            · exact ih.1 t h1
          · intro t ht
            rw [show mergePairs (a :: b :: c :: rest2)
                  = Node.new_branch a b :: mergePairs (c :: rest2) from rfl] at ht
            rcases List.mem_cons.mp ht with h1 | h1
            · subst h1
              rw [hbr]
              exact good_branch_of_full ha_full ha_good.1 hb_good
            · exact ih.2 t h1

theorem mergeAllFuel_balanced :
    ∀ (l : List Node) (fuel k : Nat), l.length ≤ fuel + 1 → GoodList k l →
      (mergeAllFuel l fuel).is_balanced = true
  | [], _, _, _, _ => by simp [mergeAllFuel, Node.is_balanced]
  | [t], _, _, _, h => by
      simp only [mergeAllFuel]
      exact (h.2 _ (by simp)).1
  | _ :: _ :: _, 0, _, hlen, _ => by simp at hlen
  | a :: b :: rest, fuel + 1, k, hlen, h => by
      show (mergeAllFuel (mergePairs (a :: b :: rest)) fuel).is_balanced = true
      exact mergeAllFuel_balanced _ fuel (k + 1)
        (by rw [mergePairs_length]; simp at hlen ⊢; omega)
        (goodList_mergePairs k _ h)

theorem Node.wfB_leaves {n : Node} (h : n.wfB = true) :
    ∀ s ∈ n.leaves, s ≠ [] := by
  induction n with
  | empty => intro s hs; exact absurd hs (by simp [Node.leaves])
  | leaf t =>
      intro s hs
      simp [Node.leaves] at hs
      subst hs
      simp [Node.wfB] at h
      exact h
  | branch l r ihl ihr =>
      intro s hs
      simp only [Node.wfB, Bool.and_eq_true] at h
      rcases List.mem_append.mp hs with h1 | h1
      · exact ihl h.1.2 s h1
      · exact ihr h.2 s h1

theorem Node.rebuild_balanced {n : Node} (h : n.wfB = true) :
    n.rebuild.is_balanced = true := by
  unfold Node.rebuild
  apply mergeAllFuel_balanced _ _ 0 (by simp)
  have hmem : ∀ t ∈ n.leaves.map Node.leaf, Good 0 t ∧ Full 0 t := by
    intro t ht
    obtain ⟨s, hs, hts⟩ := List.mem_map.mp ht
    subst hts
    have hpos : 1 ≤ s.length :=
      List.length_pos.mpr (Node.wfB_leaves h s hs)
    refine ⟨⟨rfl, Nat.le_refl _, ?_, hpos⟩, Nat.le_refl _, hpos⟩
    show 2 ^ (Node.leaf s).depth ≤ 2 * s.length
    simp only [Node.depth]
    omega
  exact ⟨fun t ht => (hmem t ((List.dropLast_sublist _).subset ht)).2,
    fun t ht => (hmem t ht).1⟩

theorem Node.rebalanceNode_balanced {n : Node} (h : n.wfB = true) :
    n.rebalanceNode.is_balanced = true := by
  unfold Node.rebalanceNode
  split
  · assumption
  · exact Node.rebuild_balanced h

theorem Node.wfB_len_zero {n : Node} (hw : n.wfB = true) (hl : n.len = 0) :
    n = Node.empty := by
  induction n with
  | empty => rfl
  | leaf s =>
      simp [Node.wfB] at hw
      simp [Node.len, hw] at hl
  | branch l r ihl ihr =>
      simp only [Node.wfB, Bool.and_eq_true] at hw
      simp [Node.len] at hl
      have he : l = Node.empty := ihl hw.1.2 hl.1
      subst he
      simp [Node.isEmptyNode] at hw

/-! ## Rope-level helper lemmas -/

theorem Node.new_branch_empty_right (n : Node) :
    Node.new_branch n Node.empty = n := by
  cases n <;> rfl

theorem Rope.bytes_append (r x : Rope) :
    (r.append x).bytes = r.bytes ++ x.bytes := by
  unfold Rope.append
  split
  · rw [Rope.bytes_fromNode, Node.bytes_new_branch]
    rfl
  · next h =>
      have hx : x.bytes = [] := x.isEmpty_iff_bytes.mp (by
        revert h
        cases x.isEmpty <;> simp)
      rw [hx, List.append_nil]

theorem Rope.bytes_prepend (r x : Rope) :
    (r.prepend x).bytes = x.bytes ++ r.bytes := by
  unfold Rope.prepend
  split
  · rw [Rope.bytes_fromNode, Node.bytes_new_branch]
    rfl
  · next h =>
      have hx : x.bytes = [] := x.isEmpty_iff_bytes.mp (by
        revert h
        cases x.isEmpty <;> simp)
      rw [hx, List.nil_append]

theorem Rope.insert_rope_bytes {r x out : Rope} {i : Nat}
    (h : r.insert_rope i x = .ok out) :
    out.bytes = r.bytes.take i ++ x.bytes ++ r.bytes.drop i := by
  unfold Rope.insert_rope at h
  split at h
  · split at h
    · next hi =>
        subst hi
        injection h with h
        subst h
        rw [Rope.bytes_prepend]
        simp
    · split at h
      · next hi =>
          injection h with h
          subst h
          rw [Rope.bytes_append]
          have hlen : i = r.bytes.length := by
            rw [← Rope.measure_eq_length_bytes]
            omega
          rw [hlen, List.take_length, List.drop_length, List.append_nil]
      · cases hsp : r.root.split i with
        | ok p =>
            obtain ⟨l, rt⟩ := p
            rw [hsp] at h
            injection h with h
            subst h
            obtain ⟨h1, h2⟩ := Node.split_bytes _ _ _ _ hsp
            rw [Rope.bytes_fromNode, Node.bytes_new_branch,
              Node.bytes_new_branch, h1, h2]
            rfl
        | error f =>
            rw [hsp] at h
            exact absurd h (by simp)
  · next hx =>
      injection h with h
      subst h
      have hb : x.bytes = [] := x.isEmpty_iff_bytes.mp (by
        revert hx
        cases x.isEmpty <;> simp)
      rw [hb, List.append_nil, List.take_append_drop]

theorem Rope.insert_rope_error {r x : Rope} {i : Nat} {f : Fault}
    (h : r.insert_rope i x = .error f) : f = Fault.boundary := by
  unfold Rope.insert_rope at h
  split at h
  · split at h
    · exact absurd h (by simp)
    · split at h
      · exact absurd h (by simp)
      · cases hsp : r.root.split i with
        | ok p =>
            obtain ⟨a, b⟩ := p
            rw [hsp] at h
            exact absurd h (by simp)
        | error g =>
            rw [hsp] at h
            injection h with h
            subst h
            exact Node.split_error _ _ _ hsp
  · exact absurd h (by simp)

theorem bytes_zip_all_iff :
    ∀ {a b : Bytes}, a.length = b.length →
      (((a.zip b).all fun p => p.1 == p.2) = true ↔ a = b)
  | [], [], _ => by simp
  | [], _ :: _, h => by simp at h
  | _ :: _, [], h => by simp at h
  | x :: xs, y :: ys, h => by
      have h2 : xs.length = ys.length := by simpa using h
      simp [List.all_cons, bytes_zip_all_iff h2]

theorem Rope.beq_iff (a b : Rope) : a.beq b = true ↔ a.bytes = b.bytes := by
  unfold Rope.beq
  split
  · next hl =>
      have hlen : a.bytes.length = b.bytes.length := by
        rw [← Rope.len_as_length_bytes, ← Rope.len_as_length_bytes]
        exact Nat.beq_eq_true_eq _ _ |>.mp hl
      exact bytes_zip_all_iff hlen
  · next hl =>
      constructor
      · intro h
        exact absurd h (by simp)
      · intro h
        have : a.len = b.len := by
          rw [Rope.len_as_length_bytes, Rope.len_as_length_bytes, h]
        exact absurd (Nat.beq_eq_true_eq _ _ |>.mpr this) hl

/-! ## Concrete ropes for the witnesses and counterexamples -/

/-- The bytes of `"this is not fine"` (the input of `delete_test_7`). -/
def bytesFine : Bytes :=
  [116, 104, 105, 115, 32, 105, 115, 32, 110, 111, 116, 32, 102, 105, 110, 101]

def ropeFine : Rope := Rope.fromBytes bytesFine

/-- The two UTF-8 bytes of `"é"`; offset 1 is inside the character. -/
def bytesEAcute : Bytes := [195, 169]

def ropeEAcute : Rope := Rope.fromBytes bytesEAcute

def ropeABCD : Rope := Rope.fromBytes [97, 98, 99, 100]

def ropeBCD : Rope := Rope.fromBytes [98, 99, 100]

def ropeAD : Rope := Rope.fromBytes [97, 100]

def ropeBC : Rope := Rope.fromBytes [98, 99]

/-- A left-leaning chain of five one-byte leaves: well-formed but
unbalanced (depth 4, 5 bytes, and `Fib(6) - 1 = 7 > 5`). -/
def chainFive : Node :=
  Node.branch (Node.branch (Node.branch (Node.branch
    (Node.leaf [97]) (Node.leaf [98])) (Node.leaf [99])) (Node.leaf [100]))
    (Node.leaf [101])

/-- `Branch(Leaf "ab", Leaf "cd")` in the prototype representation. -/
def protoTwoLeaf : ProtoNode :=
  ProtoNode.branch (ProtoNode.leaf [97, 98]) (ProtoNode.leaf [99, 100])

/-- A `delete` (or any fallible rope operation) "fails but not with an
OrderFault": the result is an error whose fault is not `order`. -/
def failsWithoutOrderFault : Except Fault Rope → Bool
  | .error f => decide (f ≠ Fault.order)
  | .ok _ => false

/-! ## The claims -/

/-- **C1** (amended): whenever `split(r, i)` returns a pair, concatenating
the two halves reproduces `r`'s byte sequence exactly; and `split` fails
with a `BoundsFault` (the `assert!(index <= self.measure())`) whenever `i`
exceeds the rope's measure.  (As stated, the claim also asserted that
`split` returns a pair for every `i ≤ measure(r)`; that fails for an index
inside a multi-byte character, see `claimC1_counterexample`.) -/
theorem claimC1 :
    (∀ (r : Rope) (i : Nat) (p : Rope × Rope), r.split i = .ok p →
        p.1.bytes ++ p.2.bytes = r.bytes)
    ∧ ∀ (r : Rope) (i : Nat), r.measure < i → r.split i = .error Fault.bounds := by
  constructor
  · intro r i p h
    unfold Rope.split at h
    split at h
    · cases hsp : r.root.split i with
      | ok q =>
          obtain ⟨l, rt⟩ := q
          rw [hsp] at h
          injection h with h
          subst h
          show (Rope.fromNode l).bytes ++ (Rope.fromNode rt).bytes = r.bytes
          rw [Rope.bytes_fromNode, Rope.bytes_fromNode]
          exact Node.split_bytes_append hsp
      | error f =>
          rw [hsp] at h
          exact absurd h (by simp)
    · exact absurd h (by simp)
  · intro r i hlt
    unfold Rope.split
    rw [if_neg (by omega)]

/-- **C1** counterexample: on the rope `"é"` (two bytes, one character)
the index 1 satisfies `1 ≤ measure`, yet `split` returns no pair at all —
it fails with a `BoundaryFault` — so the round-trip asserted for every
`0 ≤ i ≤ measure(r)` does not hold as stated. -/
theorem claimC1_counterexample :
    1 ≤ ropeEAcute.measure
      ∧ ropeEAcute.split 1 = .error Fault.boundary := by decide

/-- **C1** witness: splitting `"abcd"` at 2 gives back ropes whose bytes
concatenate to the original. -/
theorem claimC1_witness :
    (Rope.fromBytes [97, 98]).bytes ++ (Rope.fromBytes [99, 100]).bytes
      = ropeABCD.bytes :=
  claimC1.1 ropeABCD 2 (Rope.fromBytes [97, 98], Rope.fromBytes [99, 100])
    (by decide)

/-- **C2** (amended): for every rope and range with `start > end`,
`delete(range)` always fails, but never with an `OrderFault`: the default
`delete` has no order check, so the failure is either the `BoundaryFault`
of the first split or the arithmetic underflow of `end - start` (the
behaviour `delete_test_7` pins down). -/
theorem claimC2 :
    ∀ (r : Rope) (start stop : Nat), stop < start →
      failsWithoutOrderFault (r.delete start stop) = true := by
  intro r start stop hlt
  unfold Rope.delete
  cases hsp : r.root.split start with
  | ok p =>
      obtain ⟨l, rest⟩ := p
      have hsub : checkedSub stop start = .error Fault.underflow := by
        unfold checkedSub
        rw [if_neg (by omega)]
      rw [hsub]
      rfl
  | error f =>
      have hf : f = Fault.boundary := Node.split_error _ _ _ hsp
      subst hf
      rfl

/-- **C2** counterexample: `delete(12..8)` on `"this is not fine"` (the
input of `delete_test_7`) fails with the subtraction underflow — not with
an `OrderFault` — exactly as the test expects (`should_panic(expected =
"attempt to subtract with overflow")`). -/
theorem claimC2_counterexample :
    ropeFine.delete 12 8 = .error Fault.underflow
      ∧ Fault.underflow ≠ Fault.order := by decide

/-- **C2** witness: the amended statement applied to the concrete test
input. -/
theorem claimC2_witness :
    failsWithoutOrderFault (ropeFine.delete 12 8) = true :=
  claimC2 ropeFine 12 8 (by decide)

/-- **C3**: for every well-formed tree, the rope built from it and then
run through `rebalance()` satisfies `is_balanced()`.  (`Rope::rebalance`
itself is a no-op in the source — its rebuild line is commented out — but
every `Rope` is constructed through `Rope::from`, which rebalances the
root; the spec-modelled rebuild provably restores the Fibonacci bound on
every subtree.) -/
theorem claimC3 :
    ∀ n : Node, Node.wfB n = true →
      ((Rope.fromNode n).rebalance).is_balanced = true := by
  intro n hw
  have hre : (Rope.fromNode n).rebalance = Rope.fromNode n := by
    unfold Rope.rebalance
    split <;> rfl
  rw [hre]
  exact Node.rebalanceNode_balanced hw

/-- **C3** witness: an unbalanced five-leaf chain becomes balanced. -/
theorem claimC3_witness :
    Node.wfB chainFive = true
      ∧ ((Rope.fromNode chainFive).rebalance).is_balanced = true :=
  ⟨by decide, claimC3 chainFive (by decide)⟩

/-- **C4**: rope equality is shape-independent byte equality — two ropes
compare equal iff their byte sequences coincide (in particular, two
differently built ropes with identical bytes are equal); equality is
reflexive and symmetric; and ropes of different byte length are never
equal. -/
theorem claimC4 :
    (∀ a b : Rope, a.beq b = true ↔ a.bytes = b.bytes)
    ∧ (∀ a : Rope, a.beq a = true)
    ∧ (∀ a b : Rope, a.beq b = b.beq a)
    ∧ ∀ a b : Rope, a.len ≠ b.len → a.beq b = false := by
  refine ⟨Rope.beq_iff, fun a => (Rope.beq_iff a a).mpr rfl, ?_, ?_⟩
  · intro a b
    cases hab : a.beq b <;> cases hba : b.beq a
    · rfl
    · have := (Rope.beq_iff b a).mp hba
      have h2 := (Rope.beq_iff a b).mpr this.symm
      rw [hab] at h2
      exact h2
    · have := (Rope.beq_iff a b).mp hab
      have h2 := (Rope.beq_iff b a).mpr this.symm
      rw [hba] at h2
      exact h2.symm
    · rfl
  · intro a b hne
    unfold Rope.beq
    rw [if_neg]
    intro hcon
    exact hne (Nat.beq_eq_true_eq _ _ |>.mp hcon)

/-- **C4** witness: two ropes of different length are unequal. -/
theorem claimC4_witness : ropeABCD.beq ropeAD = false :=
  claimC4.2.2.2 ropeABCD ropeAD (by decide)

/-- **C5**: the persistent operations are pure functions of the receiver:
each one returns a new rope whose byte sequence is the documented splice
of the receiver's (unchanged) byte sequence — `insert_rope`/`insert`/
`insert_str` splice at the index, `append`/`prepend` concatenate,
`delete` removes the middle range and `split` partitions — and in the
concrete scenario `Rope::from("bcd").insert(0, 'a')` the receiver still
holds `"bcd"` while the result equals `"abcd"`. -/
theorem claimC5 :
    (∀ (r x out : Rope) (i : Nat), r.insert_rope i x = .ok out →
        out.bytes = r.bytes.take i ++ x.bytes ++ r.bytes.drop i)
    ∧ (∀ (r out : Rope) (i : Nat) (ch : Bytes), r.insert i ch = .ok out →
        out.bytes = r.bytes.take i ++ ch ++ r.bytes.drop i)
    ∧ (∀ (r out : Rope) (i : Nat) (s : Bytes), r.insert_str i s = .ok out →
        out.bytes = r.bytes.take i ++ s ++ r.bytes.drop i)
    ∧ (∀ r x : Rope, (r.append x).bytes = r.bytes ++ x.bytes)
    ∧ (∀ r x : Rope, (r.prepend x).bytes = x.bytes ++ r.bytes)
    ∧ (∀ (r out : Rope) (start stop : Nat), r.delete start stop = .ok out →
        out.bytes = r.bytes.take start ++ r.bytes.drop stop)
    ∧ (∀ (r : Rope) (i : Nat) (p : Rope × Rope), r.split i = .ok p →
        p.1.bytes = r.bytes.take i ∧ p.2.bytes = r.bytes.drop i)
    ∧ ropeBCD.insert 0 [97] = .ok (ropeBCD.prepend (Rope.fromBytes [97]))
    ∧ (ropeBCD.prepend (Rope.fromBytes [97])).beq ropeABCD = true
    ∧ ropeBCD.bytes = [98, 99, 100] := by
  refine ⟨fun r x out i h => Rope.insert_rope_bytes h, ?_, ?_, Rope.bytes_append,
    Rope.bytes_prepend, ?_, ?_, by decide, by decide, by decide⟩
  · intro r out i ch h
    unfold Rope.insert at h
    split at h
    · have := Rope.insert_rope_bytes h
      rwa [Rope.bytes_fromBytes] at this
    · exact absurd h (by simp)
  · intro r out i s h
    unfold Rope.insert_str at h
    split at h
    · have := Rope.insert_rope_bytes h
      rwa [Rope.bytes_fromBytes] at this
    · exact absurd h (by simp)
  · intro r out start stop h
    unfold Rope.delete at h
    cases hsp : r.root.split start with
    | ok p =>
        obtain ⟨l, rest⟩ := p
        rw [hsp] at h
        cases hle : decide (start ≤ stop) with
        | true =>
            have hle2 : start ≤ stop := of_decide_eq_true hle
            have hsub : checkedSub stop start = .ok (stop - start) := by
              unfold checkedSub
              rw [if_pos hle2]
            rw [hsub] at h
            dsimp only at h
            cases hsp2 : rest.split (stop - start) with
            | ok q =>
                obtain ⟨m, rt⟩ := q
                rw [hsp2] at h
                injection h with h
                subst h
                obtain ⟨hl1, hl2⟩ := Node.split_bytes _ _ _ _ hsp
                obtain ⟨_, hr2⟩ := Node.split_bytes _ _ _ _ hsp2
                rw [Rope.bytes_fromNode, Node.bytes_new_branch, hl1, hr2, hl2,
                  List.drop_drop]
                have harith : start + (stop - start) = stop := by omega
                rw [harith]
                rfl
            | error f =>
                rw [hsp2] at h
                exact absurd h (by simp)
        | false =>
            have hsub : checkedSub stop start = .error Fault.underflow := by
              unfold checkedSub
              rw [if_neg (by simpa using hle)]
            rw [hsub] at h
            exact absurd h (by simp)
    | error f =>
        rw [hsp] at h
        exact absurd h (by simp)
  · intro r i p h
    unfold Rope.split at h
    split at h
    · cases hsp : r.root.split i with
      | ok q =>
          obtain ⟨l, rt⟩ := q
          rw [hsp] at h
          injection h with h
          subst h
          obtain ⟨h1, h2⟩ := Node.split_bytes _ _ _ _ hsp
          exact ⟨by rw [Rope.bytes_fromNode]; exact h1,
            by rw [Rope.bytes_fromNode]; exact h2⟩
      | error f =>
          rw [hsp] at h
          exact absurd h (by simp)
    · exact absurd h (by simp)

/-- **C5** witness: inserting `"bc"` into `"ad"` at 1 yields the splice
`"a" ++ "bc" ++ "d"`. -/
theorem claimC5_witness :
    (Rope.mk (Node.branch (Node.branch (Node.leaf [97]) (Node.leaf [98, 99]))
        (Node.leaf [100]))).bytes
      = ropeAD.bytes.take 1 ++ ropeBC.bytes ++ ropeAD.bytes.drop 1 :=
  claimC5.1 ropeAD ropeBC
    (Rope.mk (Node.branch (Node.branch (Node.leaf [97]) (Node.leaf [98, 99]))
      (Node.leaf [100]))) 1 (by decide)

theorem Node.new_branch_empty_left (n : Node) :
    Node.new_branch Node.empty n = n := by
  cases n <;> rfl

/-- **C6**: the insertion boundary identities — `insert_rope(r, 0, x)` is
exactly `prepend`, which is byte-for-byte `append(x, r)`;
`insert_rope(r, len(r), x)` is exactly `append(r, x)` (for a well-formed
root); an empty `x` makes `insert_rope` a no-op clone of `r`; and in the
interior, whenever the split succeeds, the result's bytes are
`left ++ x ++ right` for `(left, right) = split(r, index)`. -/
theorem claimC6 :
    (∀ r x : Rope, r.insert_rope 0 x = .ok (r.prepend x))
    ∧ (∀ r x : Rope, (r.prepend x).bytes = (x.append r).bytes)
    ∧ (∀ r x : Rope, Node.wfB r.root = true →
        r.insert_rope r.measure x = .ok (r.append x))
    ∧ (∀ (r x : Rope) (i : Nat), x.isEmpty = true → r.insert_rope i x = .ok r)
    ∧ ∀ (r x : Rope) (i : Nat) (p : Node × Node), r.root.split i = .ok p →
        0 < i → i < r.measure → x.isEmpty = false →
        ∃ out, r.insert_rope i x = .ok out
          ∧ out.bytes = p.1.bytes ++ x.bytes ++ p.2.bytes := by
  refine ⟨?_, ?_, ?_, ?_, ?_⟩
  · intro r x
    unfold Rope.insert_rope
    cases hx : x.isEmpty with
    | true =>
        rw [if_neg (by simp [hx])]
        unfold Rope.prepend
        rw [if_neg (by simp [hx])]
    | false =>
        rw [if_pos (by simp [hx]), if_pos rfl]
  · intro r x
    rw [Rope.bytes_prepend, Rope.bytes_append]
  · intro r x hw
    unfold Rope.insert_rope
    cases hx : x.isEmpty with
    | true =>
        rw [if_neg (by simp [hx])]
        unfold Rope.append
        rw [if_neg (by simp [hx])]
    | false =>
        rw [if_pos (by simp [hx])]
        by_cases hm : r.measure = 0
        · rw [if_pos hm]
          have hroot : r.root = Node.empty := Node.wfB_len_zero hw hm
          unfold Rope.prepend Rope.append
          rw [if_pos (by simp [hx]), if_pos (by simp [hx]), hroot,
            Node.new_branch_empty_right, Node.new_branch_empty_left]
        · rw [if_neg hm, if_pos rfl]
  · intro r x i hx
    unfold Rope.insert_rope
    rw [if_neg (by simp [hx])]
  · intro r x i p hsp hpos hlt hne
    obtain ⟨l, rt⟩ := p
    refine ⟨Rope.fromNode (Node.new_branch (Node.new_branch l x.root) rt),
      ?_, ?_⟩
    · unfold Rope.insert_rope
      rw [if_pos (by simp [hne]), if_neg (by omega), if_neg (by omega), hsp]
    · rw [Rope.bytes_fromNode, Node.bytes_new_branch, Node.bytes_new_branch]
      rfl

/-- **C6** witness: inserting `"bc"` at index `len("ad")` is `append`. -/
theorem claimC6_witness :
    ropeAD.insert_rope ropeAD.measure ropeBC = .ok (ropeAD.append ropeBC) :=
  claimC6.2.2.1 ropeAD ropeBC (by decide)

/-- **C7**: the claim describes weight-guided descent (left when
`i < weight`, right with `i - weight` otherwise, `BoundsFault` only when
`i ≥ len()`).  The prototype implementation instead compares `i` against
the node's TOTAL length and descends left with the unchanged index
whenever `i ≤ len`, so the in-bounds index 2 of `Branch(Leaf "ab",
Leaf "cd")` (which should yield `"c"`) is sent into the left leaf and
dies on the out-of-range slice `"ab"[2..3]`. -/
theorem claimC7_bug :
    2 < protoTwoLeaf.len
      ∧ protoTwoLeaf.index 2 = .error Fault.bounds := by decide

/-- **C8** (amended): `insert(i, ch)` fails with a `BoundsFault` exactly
when `i > measure(r)`; for `i ≤ measure(r)` it behaves exactly as
`insert_rope(i, singleton rope of ch)` — which itself can still fail with
a `BoundaryFault` when `i` lands inside a multi-byte character (see
`claimC8_counterexample`), so "it succeeds" held only for
character-boundary indices. -/
theorem claimC8 :
    (∀ (r : Rope) (i : Nat) (ch : Bytes),
        r.insert i ch = .error Fault.bounds ↔ r.measure < i)
    ∧ ∀ (r : Rope) (i : Nat) (ch : Bytes), i ≤ r.measure →
        r.insert i ch = r.insert_rope i (Rope.fromBytes ch) := by
  constructor
  · intro r i ch
    constructor
    · intro h
      by_contra hcon
      unfold Rope.insert at h
      rw [if_pos (by omega)] at h
      have hb := Rope.insert_rope_error h
      exact absurd hb (by simp)
    · intro h
      unfold Rope.insert
      rw [if_neg (by omega)]
  · intro r i ch h
    unfold Rope.insert
    rw [if_pos h]

/-- **C8** counterexample: on the rope `"é"`, the index 1 satisfies
`1 ≤ measure`, yet `insert(1, 'a')` does not succeed — it fails with a
`BoundaryFault`. -/
theorem claimC8_counterexample :
    1 ≤ ropeEAcute.measure
      ∧ ropeEAcute.insert 1 [97] = .error Fault.boundary := by decide

/-- **C8** witness: at an in-bounds index the call is literally the
singleton `insert_rope`. -/
theorem claimC8_witness :
    ropeABCD.insert 2 [97] = ropeABCD.insert_rope 2 (Rope.fromBytes [97]) :=
  claimC8.2 ropeABCD 2 [97] (by decide)

/-- **C9**: `insert_rope` tests the inserted rope for emptiness before any
bounds validation, so with an empty `other` it returns a clone of the
receiver for EVERY index — including indices strictly greater than the
measure — and never fails. -/
theorem claimC9 :
    ∀ (r x : Rope) (i : Nat), x.isEmpty = true → r.insert_rope i x = .ok r := by
  intro r x i hx
  unfold Rope.insert_rope
  rw [if_neg (by simp [hx])]

/-- **C9** witness: index 1000 on a four-byte rope, far out of bounds,
still returns the clone with no fault. -/
theorem claimC9_witness :
    ropeABCD.insert_rope 1000 (Rope.fromBytes []) = .ok ropeABCD :=
  claimC9 ropeABCD (Rope.fromBytes []) 1000 (by decide)

/-- **C10**: the three range-indexing operators are `unimplemented!()`
stubs that fail unconditionally — for every rope and every range, even
in-bounds character-aligned ones — while the separate `slice` method does
succeed on such a range (`"abcd"[1..3]` as a slice view is `"bc"`). -/
theorem claimC10 :
    (∀ (r : Rope) (a b : Nat), r.indexRange a b = .error Fault.unimplemented)
    ∧ (∀ (r : Rope) (b : Nat), r.indexRangeTo b = .error Fault.unimplemented)
    ∧ (∀ (r : Rope) (a : Nat), r.indexRangeFrom a = .error Fault.unimplemented)
    ∧ ropeABCD.slice 1 3 = .ok [98, 99] :=
  ⟨fun _ _ _ => rfl, fun _ _ => rfl, fun _ _ => rfl, by decide⟩

end AnRope
